import Mathlib

/-!
Verification of an XOR doubly linked list over an arena allocator
(`src/linked_list.rs`).  The Rust code is shallowly embedded: `Vec` becomes
`List`, `Option` stays `Option`, `usize` becomes `Nat` (index arithmetic
`ptr - 1` is always used with `ptr ≥ 1` in reachable states, where `Nat`
subtraction agrees with `usize` subtraction), and `&mut` access becomes an
explicit read (`getNode`) plus write-back (`modifyNode`).  The free stack of
`Vec<usize>` is modelled with the head of the Lean list as the top of the
Rust vector (push = cons, pop = head).
-/

/-- Rust `Node<T>`: a payload and the XOR of the prev and next pointer. -/
structure Node (T : Type) where
  ptr : Nat
  payload : T
  deriving Repr, DecidableEq

/-- Rust `Node::new`: a fresh node has `ptr = 0`. -/
def Node.new {T : Type} (payload : T) : Node T :=
  { ptr := 0, payload := payload }

/-- Rust `Memory<T>`: slot vector plus free-slot stack (head of the list is the
top of the Rust `Vec`). 0 is the null pointer; other pointers are slot
index + 1. -/
structure Memory (T : Type) where
  slots : List (Option (Node T))
  free_slots : List Nat
  deriving Repr, DecidableEq

namespace Memory

variable {T : Type}

/-- Rust `Memory::new`. -/
def new : Memory T :=
  { slots := [], free_slots := [] }

/-- Rust `Memory::alloc`: reuse a free slot if one exists (returning
`slot_index + 1`), else push a new slot and return the new length. -/
def alloc (m : Memory T) (payload : T) : Memory T × Nat :=
  match m.free_slots with
  | slot_index :: rest =>
      ({ slots := m.slots.set slot_index (some (Node.new payload)),
         free_slots := rest }, slot_index + 1)
  | [] =>
      ({ slots := m.slots ++ [some (Node.new payload)],
         free_slots := [] }, m.slots.length + 1)

/-- Rust `Memory::remove`: pushes `ptr - 1` onto the free stack unconditionally,
then takes the node out of the slot (if any) and returns its payload.
`ptr - 1` in Rust panics for `ptr = 0` in debug builds; `Nat` subtraction
models the `ptr ≥ 1` calls, which are the only ones the list performs. -/
def remove (m : Memory T) (ptr : Nat) : Memory T × Option T :=
  match m.slots[ptr - 1]? with
  | some (some node) =>
      ({ slots := m.slots.set (ptr - 1) none,
         free_slots := (ptr - 1) :: m.free_slots }, some node.payload)
  | _ =>
      ({ slots := m.slots,
         free_slots := (ptr - 1) :: m.free_slots }, none)

/-- Read half of `Memory::get_mut`: `None` for the null pointer 0, else the
node stored in slot `ptr - 1` (if occupied). -/
def getNode (m : Memory T) (ptr : Nat) : Option (Node T) :=
  if ptr = 0 then none else (m.slots[ptr - 1]?).bind id

/-- Write half of `Memory::get_mut`: `if let Some(node) = get_mut(ptr)
{ node = f node }`.  No-op when `get_mut` returns `None`. -/
def modifyNode (m : Memory T) (ptr : Nat) (f : Node T → Node T) : Memory T :=
  match m.getNode ptr with
  | none => m
  | some n => { m with slots := m.slots.set (ptr - 1) (some (f n)) }

/-- Rust `Memory::len`: total slots minus free slots. -/
def len (m : Memory T) : Nat :=
  m.slots.length - m.free_slots.length

end Memory

/-- Rust `LinkedList<T>`: head and tail handles plus the arena. -/
structure LinkedList (T : Type) where
  head : Nat
  tail : Nat
  memory : Memory T
  deriving Repr, DecidableEq

namespace LinkedList

variable {T : Type}

/-- Rust `LinkedList::new`. -/
def new : LinkedList T :=
  { head := 0, tail := 0, memory := Memory.new }

/-- Rust `LinkedList::len`. -/
def len (l : LinkedList T) : Nat :=
  l.memory.len

/-- Rust `LinkedList::push_front`.  The Rust `get_mut(node_ptr).unwrap()` always
succeeds (the freshly allocated slot is occupied); it is modelled by
`modifyNode`, which performs the same update in that case. -/
def push_front (l : LinkedList T) (payload : T) : LinkedList T :=
  let r := l.memory.alloc payload
  let node_ptr := r.2
  let old_head_ptr := l.head
  let m2 := r.1.modifyNode node_ptr (fun n => { n with ptr := n.ptr ^^^ old_head_ptr })
  let m3 := m2.modifyNode old_head_ptr (fun n => { n with ptr := n.ptr ^^^ node_ptr })
  let l' : LinkedList T := { head := node_ptr, tail := l.tail, memory := m3 }
  if l'.len = 1 then { l' with tail := node_ptr } else l'

/-- Rust `LinkedList::push_back` (mirror of `push_front`). -/
def push_back (l : LinkedList T) (payload : T) : LinkedList T :=
  let r := l.memory.alloc payload
  let node_ptr := r.2
  let old_tail_ptr := l.tail
  let m2 := r.1.modifyNode node_ptr (fun n => { n with ptr := n.ptr ^^^ old_tail_ptr })
  let m3 := m2.modifyNode old_tail_ptr (fun n => { n with ptr := n.ptr ^^^ node_ptr })
  let l' : LinkedList T := { head := l.head, tail := node_ptr, memory := m3 }
  if l'.len = 1 then { l' with head := node_ptr } else l'

/-- Rust `LinkedList::pop_front`.  Returns the updated list and the result of the
Rust function (`?` on an empty head returns `None` with the list untouched). -/
def pop_front (l : LinkedList T) : LinkedList T × Option T :=
  let head_node_ptr := l.head
  match l.memory.getNode head_node_ptr with
  | none => (l, none)
  | some head_node =>
      let next_node_ptr := head_node.ptr
      let m1 := l.memory.modifyNode next_node_ptr
        (fun n => { n with ptr := n.ptr ^^^ head_node_ptr })
      let l1 : LinkedList T := { head := next_node_ptr, tail := l.tail, memory := m1 }
      let l2 := if l1.len = 1 then { l1 with tail := 0 } else l1
      let r := l2.memory.remove head_node_ptr
      ({ l2 with memory := r.1 }, r.2)

/-- Rust `LinkedList::pop_back` (mirror of `pop_front`). -/
def pop_back (l : LinkedList T) : LinkedList T × Option T :=
  let tail_node_ptr := l.tail
  match l.memory.getNode tail_node_ptr with
  | none => (l, none)
  | some tail_node =>
      let prev_node_ptr := tail_node.ptr
      let m1 := l.memory.modifyNode prev_node_ptr
        (fun n => { n with ptr := n.ptr ^^^ tail_node_ptr })
      let l1 : LinkedList T := { head := l.head, tail := prev_node_ptr, memory := m1 }
      let l2 := if l1.len = 1 then { l1 with head := 0 } else l1
      let r := l2.memory.remove tail_node_ptr
      ({ l2 with memory := r.1 }, r.2)

end LinkedList

/-- Rust `LinkedListIter<T>`: owns the list it drains. -/
structure LinkedListIter (T : Type) where
  linked_list : LinkedList T
  deriving Repr, DecidableEq

/-- Rust `IntoIterator::into_iter` for `LinkedList`. -/
def LinkedList.intoIter {T : Type} (l : LinkedList T) : LinkedListIter T :=
  { linked_list := l }

/-- Rust `Iterator::next` for `LinkedListIter`: one `pop_front` per call. -/
def LinkedListIter.next {T : Type} (it : LinkedListIter T) :
    LinkedListIter T × Option T :=
  let r := it.linked_list.pop_front
  ({ linked_list := r.1 }, r.2)

/-! ## Representation predicate

`ListRep l hs vs` says the list `l` holds exactly the handles `hs` (front to
back) with payloads `vs`, every node's link word is the XOR of its two
neighbor handles (0 for a missing neighbor), and the arena is consistent:
occupied slots are exactly the handles in use, the free stack holds exactly
the vacant slot indices without duplicates. -/

/-- Handle of the predecessor of position `i` in `hs` (0 at the front). -/
def prevAt (hs : List Nat) (i : Nat) : Nat :=
  if i = 0 then 0 else (hs[i-1]?).getD 0

/-- Handle of the successor of position `i` in `hs` (0 at the back). -/
def nextAt (hs : List Nat) (i : Nat) : Nat :=
  (hs[i+1]?).getD 0

/-- Expected link word of the node at position `i` of `hs`. -/
def linkAt (hs : List Nat) (i : Nat) : Nat :=
  prevAt hs i ^^^ nextAt hs i

/-- The abstraction relation between a `LinkedList` and the handle/payload
sequences it represents. -/
structure ListRep {T : Type} (l : LinkedList T) (hs : List Nat) (vs : List T) : Prop where
  len_eq : hs.length = vs.length
  nodup : hs.Nodup
  nz : ∀ h ∈ hs, h ≠ 0
  head_eq : l.head = hs.headD 0
  tail_eq : l.tail = hs.getLastD 0
  nodes : ∀ i h v, hs[i]? = some h → vs[i]? = some v →
      l.memory.getNode h = some { ptr := linkAt hs i, payload := v }
  occupied : ∀ j node, l.memory.slots[j]? = some (some node) → (j+1) ∈ hs
  free_iff : ∀ j, j ∈ l.memory.free_slots ↔ l.memory.slots[j]? = some none
  free_nodup : l.memory.free_slots.Nodup
  count : l.memory.slots.length = hs.length + l.memory.free_slots.length

section RepBasic

variable {T : Type}

theorem Memory.getNode_eq_some_iff {m : Memory T} {h : Nat} {n : Node T} :
    m.getNode h = some n ↔ h ≠ 0 ∧ m.slots[h-1]? = some (some n) := by
  unfold Memory.getNode
  rcases eq_or_ne h 0 with h0 | h0
  · simp [h0]
  · simp only [h0, if_neg h0, ne_eq, not_false_eq_true, true_and]
    rcases hs : m.slots[h-1]? with _ | mn
    · simp
    · rcases mn with _ | nd <;> simp

theorem Memory.getNode_zero (m : Memory T) : m.getNode 0 = none := by
  simp [Memory.getNode]

theorem Memory.modifyNode_of_getNode_none {m : Memory T} {h : Nat}
    (f : Node T → Node T) (hnone : m.getNode h = none) :
    m.modifyNode h f = m := by
  unfold Memory.modifyNode
  rw [hnone]

theorem Memory.modifyNode_of_getNode_some {m : Memory T} {h : Nat} {n : Node T}
    (f : Node T → Node T) (hsome : m.getNode h = some n) :
    m.modifyNode h f =
      { m with slots := m.slots.set (h-1) (some (f n)) } := by
  unfold Memory.modifyNode
  rw [hsome]

/-- Overwriting an occupied (or out-of-range) slot with an occupied value
does not change which slots are vacant. -/
theorem vacancy_set {s : List (Option (Node T))} {k : Nat} {node : Node T}
    (hk : s[k]? ≠ some none) (j : Nat) :
    (s.set k (some node))[j]? = some none ↔ s[j]? = some none := by
  rcases eq_or_ne k j with rfl | hne
  · rw [List.getElem?_set]
    simp only [if_pos rfl]
    constructor
    · intro hc
      split at hc <;> simp_all
    · intro hc
      exact absurd hc hk
  · rw [List.getElem?_set_ne hne]

theorem ListRep.len_eq_handles {l : LinkedList T} {hs : List Nat} {vs : List T}
    (h : ListRep l hs vs) : l.len = hs.length := by
  have := h.count
  unfold LinkedList.len Memory.len
  omega

theorem ListRep.mem_slot {l : LinkedList T} {hs : List Nat} {vs : List T}
    (hrep : ListRep l hs vs) {h : Nat} (hmem : h ∈ hs) :
    ∃ node, l.memory.slots[h-1]? = some (some node) := by
  obtain ⟨i, hi⟩ := List.mem_iff_getElem?.1 hmem
  have hilt : i < hs.length := (List.getElem?_eq_some_iff.1 hi).1
  have hvlt : i < vs.length := by
    rw [← hrep.len_eq]; exact hilt
  obtain ⟨v, hv⟩ : ∃ v, vs[i]? = some v := by
    rcases hveq : vs[i]? with _ | v
    · exact absurd (List.getElem?_eq_none_iff.1 hveq) (by omega)
    · exact ⟨v, rfl⟩
  have := hrep.nodes i h v hi hv
  exact ⟨_, (Memory.getNode_eq_some_iff.1 this).2⟩

/-- The empty list represents `([], [])`. -/
theorem ListRep.of_new : ListRep (LinkedList.new : LinkedList T) [] [] := by
  refine ⟨rfl, List.nodup_nil, ?_, rfl, rfl, ?_, ?_, ?_, List.nodup_nil, rfl⟩
  · intro h hm; exact absurd hm (List.not_mem_nil h)
  · intro i h v hh _; simp at hh
  · intro j node hj; simp [LinkedList.new, Memory.new] at hj
  · intro j; simp [LinkedList.new, Memory.new]

end RepBasic

/-! ## Allocator correctness -/

/-- In a consistent arena, `alloc` returns a fresh nonzero handle, stores the
new node there, leaves every other slot alone, and keeps the free stack
consistent (vacant slots exactly, no duplicates) with the slot count grown
by one handle. -/
theorem Memory.alloc_spec {T : Type} (m : Memory T) (p : T) (hs : List Nat)
    (hin : ∀ h ∈ hs, ∃ node, m.slots[h-1]? = some (some node))
    (hfree : ∀ j, j ∈ m.free_slots ↔ m.slots[j]? = some none)
    (hnodup : m.free_slots.Nodup)
    (hcount : m.slots.length = hs.length + m.free_slots.length) :
    (m.alloc p).2 ≠ 0 ∧ (m.alloc p).2 ∉ hs ∧
    (m.alloc p).1.slots[(m.alloc p).2 - 1]? = some (some (Node.new p)) ∧
    (∀ j, j ≠ (m.alloc p).2 - 1 → (m.alloc p).1.slots[j]? = m.slots[j]?) ∧
    (∀ j, j ∈ (m.alloc p).1.free_slots ↔ (m.alloc p).1.slots[j]? = some none) ∧
    (m.alloc p).1.free_slots.Nodup ∧
    (m.alloc p).1.slots.length = (hs.length + 1) + (m.alloc p).1.free_slots.length := by
  rcases hm : m.free_slots with _ | ⟨j0, rest⟩
  · -- append a brand new slot
    simp only [Memory.alloc, hm]
    refine ⟨by omega, ?_, ?_, ?_, ?_, List.nodup_nil, ?_⟩
    · intro hmem
      obtain ⟨node, hnd⟩ := hin _ hmem
      rw [Nat.add_sub_cancel, List.getElem?_eq_none (Nat.le_refl _)] at hnd
      exact Option.noConfusion hnd
    · rw [Nat.add_sub_cancel]
      exact List.getElem?_concat_length m.slots (some (Node.new p))
    · intro j hj
      rw [Nat.add_sub_cancel] at hj
      rcases Nat.lt_or_ge j m.slots.length with hlt | hge
      · exact List.getElem?_append_left hlt
      · have hgt : m.slots.length < j := by omega
        rw [List.getElem?_eq_none (l := m.slots) (by omega),
          List.getElem?_eq_none (by simp; omega)]
    · intro j
      simp only [List.not_mem_nil, false_iff]
      intro hc
      rcases Nat.lt_or_ge j m.slots.length with hlt | hge
      · rw [List.getElem?_append_left hlt] at hc
        have := (hfree j).2 hc
        rw [hm] at this
        exact List.not_mem_nil j this
      · rcases Nat.eq_or_lt_of_le hge with heq | hgt
        · rw [← heq, List.getElem?_concat_length] at hc
          exact Option.noConfusion (Option.some.inj hc)
        · rw [List.getElem?_eq_none (by simp; omega)] at hc
          exact Option.noConfusion hc
    · rw [hm] at hcount
      simp only [List.length_append, List.length_cons, List.length_nil] at *
      omega
  · -- reuse the top free slot
    have hj0free : j0 ∈ m.free_slots := by rw [hm]; exact List.mem_cons_self j0 rest
    have hj0vac : m.slots[j0]? = some none := (hfree j0).1 hj0free
    have hj0lt : j0 < m.slots.length := by
      obtain ⟨hlt, -⟩ := List.getElem?_eq_some_iff.1 hj0vac
      exact hlt
    have hj0rest : j0 ∉ rest := by
      rw [hm] at hnodup
      exact (List.nodup_cons.1 hnodup).1
    simp only [Memory.alloc, hm]
    refine ⟨by omega, ?_, ?_, ?_, ?_, ?_, ?_⟩
    · intro hmem
      obtain ⟨node, hnd⟩ := hin _ hmem
      rw [Nat.add_sub_cancel, hj0vac] at hnd
      exact Option.noConfusion (Option.some.inj hnd)
    · rw [Nat.add_sub_cancel]
      exact List.getElem?_set_self hj0lt
    · intro j hj
      rw [Nat.add_sub_cancel] at hj
      exact List.getElem?_set_ne (Ne.symm hj)
    · intro j
      constructor
      · intro hj
        have hjne : j ≠ j0 := fun hc => hj0rest (hc ▸ hj)
        rw [List.getElem?_set_ne (Ne.symm hjne)]
        exact (hfree j).1 (by rw [hm]; exact List.mem_cons_of_mem j0 hj)
      · intro hc
        rcases eq_or_ne j j0 with rfl | hjne
        · rw [List.getElem?_set_self hj0lt] at hc
          exact absurd (Option.some.inj hc) (by simp)
        · rw [List.getElem?_set_ne (Ne.symm hjne)] at hc
          have := (hfree j).2 hc
          rw [hm] at this
          rcases List.mem_cons.1 this with rfl | hmem
          · exact absurd rfl hjne
          · exact hmem
    · rw [hm] at hnodup
      exact (List.nodup_cons.1 hnodup).2
    · rw [hm] at hcount
      simp only [List.length_set, List.length_cons] at *
      omega

/-! ## Link-word index lemmas -/

theorem linkAt_singleton (h : Nat) : linkAt [h] 0 = 0 := by
  simp [linkAt, prevAt, nextAt]

theorem linkAt_cons_zero (x : Nat) (hs : List Nat) :
    linkAt (x :: hs) 0 = (hs[0]?).getD 0 := by
  simp [linkAt, prevAt, nextAt]

theorem linkAt_cons_one (x y : Nat) (hs : List Nat) :
    linkAt (x :: y :: hs) 1 = x ^^^ (hs[0]?).getD 0 := by
  simp [linkAt, prevAt, nextAt]

theorem linkAt_cons_succ (x : Nat) (hs : List Nat) (i : Nat) (hi : 1 ≤ i) :
    linkAt (x :: hs) (i+1) = linkAt hs i := by
  obtain ⟨k, rfl⟩ : ∃ k, i = k + 1 := ⟨i - 1, by omega⟩
  simp [linkAt, prevAt, nextAt]

/-! ## push_front preserves the representation -/

theorem Node.new_ptr {T : Type} (p : T) : (Node.new p).ptr = 0 := rfl

theorem Node.new_payload {T : Type} (p : T) : (Node.new p).payload = p := rfl

/-- Applying `push_front` prepends the freshly allocated handle and payload. -/
theorem push_front_listRep {T : Type} {l : LinkedList T} {hs : List Nat}
    {vs : List T} (p : T) (hrep : ListRep l hs vs) :
    ListRep (l.push_front p) ((l.memory.alloc p).2 :: hs) (p :: vs) := by
  obtain ⟨hz, hfresh, hnew, hothers, hfree, hnodup, hcount⟩ :=
    Memory.alloc_spec l.memory p hs (fun h hh => hrep.mem_slot hh)
      hrep.free_iff hrep.free_nodup hrep.count
  have hnplt : (l.memory.alloc p).2 - 1 < (l.memory.alloc p).1.slots.length := by
    obtain ⟨hlt, -⟩ := List.getElem?_eq_some_iff.1 hnew
    exact hlt
  have hget1 : ((l.memory.alloc p).1).getNode (l.memory.alloc p).2 =
      some (Node.new p) :=
    Memory.getNode_eq_some_iff.2 ⟨hz, hnew⟩
  rcases hs with _ | ⟨h0, hs2⟩
  · -- empty list: the new node becomes head and tail
    have hvs : vs = [] := by
      have := hrep.len_eq
      cases vs
      · rfl
      · simp at this
    subst hvs
    have hhead : l.head = 0 := hrep.head_eq
    simp only [LinkedList.push_front, hhead,
      Memory.modifyNode_of_getNode_some _ hget1,
      Memory.modifyNode_of_getNode_none _ (Memory.getNode_zero _),
      Node.new_ptr, Node.new_payload, Nat.zero_xor, Nat.xor_zero]
    rw [if_pos (by
      show _ - _ = 1
      simp only [List.length_set]
      simp only [List.length_nil] at hcount
      omega)]
    refine ⟨rfl, by simp, ?_, rfl, rfl, ?_, ?_, ?_, hnodup, ?_⟩
    · intro h hm
      rw [List.mem_singleton] at hm
      subst hm
      exact hz
    · intro i h v hh hv
      match i with
      | 0 =>
        rw [List.getElem?_cons_zero] at hh hv
        obtain rfl := Option.some.inj hh
        obtain rfl := Option.some.inj hv
        refine Memory.getNode_eq_some_iff.2 ⟨hz, ?_⟩
        rw [List.getElem?_set_self hnplt]
        simp [linkAt, prevAt, nextAt]
      | i' + 1 =>
        rw [List.getElem?_cons_succ] at hh
        simp at hh
    · intro j node hj
      rcases eq_or_ne j ((l.memory.alloc p).2 - 1) with rfl | hne
      · have hjp : (l.memory.alloc p).2 - 1 + 1 = (l.memory.alloc p).2 := by omega
        rw [hjp]
        exact List.mem_singleton.2 rfl
      · rw [List.getElem?_set_ne (Ne.symm hne)] at hj
        rw [hothers j hne] at hj
        exact absurd (hrep.occupied j node hj) (List.not_mem_nil _)
    · intro j
      rw [vacancy_set (by rw [hnew]; simp) j]
      exact hfree j
    · simp only [List.length_set, List.length_cons, List.length_nil] at *
      omega
  · -- nonempty list: link the new node to the old head
    obtain ⟨v0, vs2, rfl⟩ : ∃ v0 vs2, vs = v0 :: vs2 := by
      have := hrep.len_eq
      cases vs
      · simp at this
      · exact ⟨_, _, rfl⟩
    have hhead : l.head = h0 := hrep.head_eq
    have hh0mem : h0 ∈ h0 :: hs2 := List.mem_cons_self h0 hs2
    have hh0z : h0 ≠ 0 := hrep.nz h0 hh0mem
    have hh0np : h0 ≠ (l.memory.alloc p).2 := by
      intro hc
      exact hfresh (hc ▸ hh0mem)
    have hidx : h0 - 1 ≠ (l.memory.alloc p).2 - 1 := by omega
    have hget0 : l.memory.getNode h0 =
        some { ptr := linkAt (h0 :: hs2) 0, payload := v0 } :=
      hrep.nodes 0 h0 v0 (by simp) (by simp)
    have hslot0 : l.memory.slots[h0-1]? =
        some (some { ptr := linkAt (h0 :: hs2) 0, payload := v0 }) :=
      (Memory.getNode_eq_some_iff.1 hget0).2
    have hslot0m2 :
        ((l.memory.alloc p).1.slots.set ((l.memory.alloc p).2 - 1)
          (some { ptr := h0, payload := p }))[h0-1]? =
        some (some { ptr := linkAt (h0 :: hs2) 0, payload := v0 }) := by
      rw [List.getElem?_set_ne (Ne.symm hidx), hothers _ hidx, hslot0]
    have hget0m2 :
        (Memory.mk
          ((l.memory.alloc p).1.slots.set ((l.memory.alloc p).2 - 1)
            (some { ptr := h0, payload := p }))
          (l.memory.alloc p).1.free_slots).getNode h0 =
        some { ptr := linkAt (h0 :: hs2) 0, payload := v0 } :=
      Memory.getNode_eq_some_iff.2 ⟨hh0z, hslot0m2⟩
    have hslot0lt : h0 - 1 <
        ((l.memory.alloc p).1.slots.set ((l.memory.alloc p).2 - 1)
          (some { ptr := h0, payload := p })).length := by
      obtain ⟨hlt, -⟩ := List.getElem?_eq_some_iff.1 hslot0m2
      exact hlt
    simp only [LinkedList.push_front, hhead,
      Memory.modifyNode_of_getNode_some _ hget1,
      Node.new_ptr, Node.new_payload, Nat.zero_xor]
    rw [Memory.modifyNode_of_getNode_some _ hget0m2]
    rw [if_neg (by
      show ¬(_ - _ = 1)
      simp only [List.length_set]
      simp only [List.length_cons] at hcount
      omega)]
    refine ⟨by simpa using hrep.len_eq, List.nodup_cons.2 ⟨hfresh, hrep.nodup⟩,
      ?_, rfl, ?_, ?_, ?_, ?_, hnodup, ?_⟩
    · intro h hm
      rcases List.mem_cons.1 hm with rfl | hm2
      · exact hz
      · exact hrep.nz h hm2
    · show l.tail = _
      rw [hrep.tail_eq]
      simp only [List.getLastD_cons]
    · intro i h v hh hv
      match i with
      | 0 =>
        rw [List.getElem?_cons_zero] at hh hv
        obtain rfl := Option.some.inj hh
        obtain rfl := Option.some.inj hv
        refine Memory.getNode_eq_some_iff.2 ⟨hz, ?_⟩
        rw [List.getElem?_set_ne hidx, List.getElem?_set_self hnplt]
        rw [linkAt_cons_zero]
        simp
      | 1 =>
        rw [List.getElem?_cons_succ, List.getElem?_cons_zero] at hh hv
        obtain rfl := Option.some.inj hh
        obtain rfl := Option.some.inj hv
        refine Memory.getNode_eq_some_iff.2 ⟨hh0z, ?_⟩
        rw [List.getElem?_set_self hslot0lt]
        rw [linkAt_cons_one, linkAt_cons_zero, Nat.xor_comm]
      | k + 2 =>
        rw [List.getElem?_cons_succ, List.getElem?_cons_succ] at hh hv
        have hmem : h ∈ hs2 := List.mem_iff_getElem?.2 ⟨k, hh⟩
        have hz2 : h ≠ 0 := hrep.nz h (List.mem_cons_of_mem h0 hmem)
        have hnh0 : h ≠ h0 := by
          intro hc
          subst hc
          exact (List.nodup_cons.1 hrep.nodup).1 hmem
        have hnnp : h ≠ (l.memory.alloc p).2 := by
          intro hc
          exact hfresh (hc ▸ List.mem_cons_of_mem h0 hmem)
        have hgetk : l.memory.getNode h =
            some { ptr := linkAt (h0 :: hs2) (k+1), payload := v } :=
          hrep.nodes (k+1) h v (by simpa using hh) (by simpa using hv)
        refine Memory.getNode_eq_some_iff.2 ⟨hz2, ?_⟩
        rw [List.getElem?_set_ne (by omega), List.getElem?_set_ne (by omega),
          hothers _ (by omega)]
        rw [(Memory.getNode_eq_some_iff.1 hgetk).2]
        rw [linkAt_cons_succ _ _ (k+1) (by omega)]
    · intro j node hj
      rcases eq_or_ne j (h0 - 1) with rfl | hne0
      · have hjp : h0 - 1 + 1 = h0 := by omega
        rw [hjp]
        exact List.mem_cons_of_mem _ hh0mem
      · rw [List.getElem?_set_ne (Ne.symm hne0)] at hj
        rcases eq_or_ne j ((l.memory.alloc p).2 - 1) with rfl | hnenp
        · have hjp : (l.memory.alloc p).2 - 1 + 1 = (l.memory.alloc p).2 := by omega
          rw [hjp]
          exact List.mem_cons_self _ _
        · rw [List.getElem?_set_ne (Ne.symm hnenp), hothers _ hnenp] at hj
          exact List.mem_cons_of_mem _ (hrep.occupied j node hj)
    · intro j
      rw [vacancy_set (by rw [hslot0m2]; simp) j,
        vacancy_set (by rw [hnew]; simp) j]
      exact hfree j
    · simp only [List.length_set, List.length_cons] at *
      omega

/-! ## pop_front restores the representation of the tail -/

/-- Applying `pop_front` on a represented nonempty list returns the front payload and
leaves a list representing the remaining sequences. -/
theorem pop_front_listRep {T : Type} {l : LinkedList T} {h : Nat}
    {hs : List Nat} {v : T} {vs : List T}
    (hrep : ListRep l (h :: hs) (v :: vs)) :
    (l.pop_front).2 = some v ∧ ListRep (l.pop_front).1 hs vs := by
  have hhead : l.head = h := hrep.head_eq
  have hhz : h ≠ 0 := hrep.nz h (List.mem_cons_self h hs)
  have hget : l.memory.getNode h = some { ptr := linkAt (h :: hs) 0, payload := v } :=
    hrep.nodes 0 h v (by simp) (by simp)
  have hslot : l.memory.slots[h-1]? =
      some (some { ptr := linkAt (h :: hs) 0, payload := v }) :=
    (Memory.getNode_eq_some_iff.1 hget).2
  have hhlt : h - 1 < l.memory.slots.length := by
    obtain ⟨hlt, -⟩ := List.getElem?_eq_some_iff.1 hslot
    exact hlt
  rcases hs with _ | ⟨h1, hs2⟩
  · -- only element: list becomes empty
    have hvs : vs = [] := by
      have := hrep.len_eq
      cases vs
      · rfl
      · simp at this
    subst hvs
    have hget' : l.memory.getNode h = some { ptr := 0, payload := v } := by
      rw [hget, linkAt_singleton]
    have hslot' : l.memory.slots[h-1]? = some (some { ptr := 0, payload := v }) :=
      (Memory.getNode_eq_some_iff.1 hget').2
    simp only [LinkedList.pop_front, hhead, hget',
      Memory.modifyNode_of_getNode_none _ (Memory.getNode_zero _)]
    split
    case isFalse hlen =>
      exfalso
      apply hlen
      show l.memory.slots.length - l.memory.free_slots.length = 1
      have := hrep.count
      simp only [List.length_cons, List.length_nil] at this
      omega
    simp only [Memory.remove, hslot']
    refine ⟨by trivial, rfl, List.nodup_nil, ?_, rfl, rfl, ?_, ?_, ?_, ?_, ?_⟩
    · intro x hx
      exact absurd hx (List.not_mem_nil x)
    · intro i x w hh
      simp at hh
    · intro j node hj
      rcases eq_or_ne j (h - 1) with rfl | hne
      · rw [List.getElem?_set_self hhlt] at hj
        exact absurd (Option.some.inj hj) (by simp)
      · rw [List.getElem?_set_ne (Ne.symm hne)] at hj
        have := hrep.occupied j node hj
        rw [List.mem_singleton] at this
        omega
    · intro j
      rcases eq_or_ne j (h - 1) with rfl | hne
      · constructor
        · intro _
          rw [List.getElem?_set_self hhlt]
        · intro _
          exact List.mem_cons_self _ _
      · rw [List.getElem?_set_ne (Ne.symm hne)]
        constructor
        · intro hj
          rcases List.mem_cons.1 hj with rfl | hmem
          · exact absurd rfl hne
          · exact (hrep.free_iff j).1 hmem
        · intro hj
          exact List.mem_cons_of_mem _ ((hrep.free_iff j).2 hj)
    · refine List.nodup_cons.2 ⟨?_, hrep.free_nodup⟩
      intro hmem
      have := (hrep.free_iff (h-1)).1 hmem
      rw [hslot'] at this
      exact absurd (Option.some.inj this) (by simp)
    · have := hrep.count
      simp only [List.length_set, List.length_cons, List.length_nil] at *
      omega
  · -- at least two elements: the second node becomes the head
    obtain ⟨v1, vs2, rfl⟩ : ∃ v1 vs2, vs = v1 :: vs2 := by
      have := hrep.len_eq
      cases vs
      · simp at this
      · exact ⟨_, _, rfl⟩
    have hh1mem : h1 ∈ h :: h1 :: hs2 :=
      List.mem_cons_of_mem h (List.mem_cons_self h1 hs2)
    have hh1z : h1 ≠ 0 := hrep.nz h1 hh1mem
    have hh1h : h1 ≠ h := by
      intro hc
      exact (List.nodup_cons.1 hrep.nodup).1 (hc ▸ List.mem_cons_self h1 hs2)
    have hidx : h1 - 1 ≠ h - 1 := by omega
    have hl0 : linkAt (h :: h1 :: hs2) 0 = h1 := by
      rw [linkAt_cons_zero]
      simp
    have hget' : l.memory.getNode h = some { ptr := h1, payload := v } := by
      rw [hget, hl0]
    have hslotv : l.memory.slots[h-1]? = some (some { ptr := h1, payload := v }) :=
      (Memory.getNode_eq_some_iff.1 hget').2
    have hget1 : l.memory.getNode h1 =
        some { ptr := linkAt (h :: h1 :: hs2) 1, payload := v1 } :=
      hrep.nodes 1 h1 v1 (by simp) (by simp)
    have hslot1 : l.memory.slots[h1-1]? =
        some (some { ptr := linkAt (h :: h1 :: hs2) 1, payload := v1 }) :=
      (Memory.getNode_eq_some_iff.1 hget1).2
    have hslot1lt : h1 - 1 < l.memory.slots.length := by
      obtain ⟨hlt, -⟩ := List.getElem?_eq_some_iff.1 hslot1
      exact hlt
    simp only [LinkedList.pop_front, hhead, hget']
    rw [Memory.modifyNode_of_getNode_some _ hget1]
    split
    case isTrue hlen =>
      exfalso
      have hlen2 : _ - _ = 1 := hlen
      have := hrep.count
      simp only [List.length_set, List.length_cons] at *
      omega
    have hslotm1 :
        ((l.memory.slots.set (h1-1)
          (some { ptr := linkAt (h :: h1 :: hs2) 1 ^^^ h, payload := v1 })))[h-1]? =
        some (some { ptr := h1, payload := v }) := by
      rw [List.getElem?_set_ne hidx, hslotv]
    simp only [Memory.remove, hslotm1]
    refine ⟨by trivial, by simpa using hrep.len_eq,
      (List.nodup_cons.1 hrep.nodup).2, ?_, rfl, ?_, ?_, ?_, ?_, ?_, ?_⟩
    · intro x hx
      exact hrep.nz x (List.mem_cons_of_mem h hx)
    · show l.tail = _
      rw [hrep.tail_eq]
      simp only [List.getLastD_cons]
    · intro i x w hh hv
      match i with
      | 0 =>
        rw [List.getElem?_cons_zero] at hh hv
        obtain rfl := Option.some.inj hh
        obtain rfl := Option.some.inj hv
        refine Memory.getNode_eq_some_iff.2 ⟨hh1z, ?_⟩
        rw [List.getElem?_set_ne (by omega),
          List.getElem?_set_self hslot1lt]
        rw [linkAt_cons_one, Nat.xor_comm h, Nat.xor_cancel_right,
          linkAt_cons_zero]
      | k + 1 =>
        rw [List.getElem?_cons_succ] at hh hv
        have hmem : x ∈ hs2 := List.mem_iff_getElem?.2 ⟨k, hh⟩
        have hxz : x ≠ 0 :=
          hrep.nz x (List.mem_cons_of_mem h (List.mem_cons_of_mem h1 hmem))
        have hxh : x ≠ h := by
          intro hc
          exact (List.nodup_cons.1 hrep.nodup).1
            (hc ▸ List.mem_cons_of_mem h1 hmem)
        have hxh1 : x ≠ h1 := by
          intro hc
          exact (List.nodup_cons.1 (List.nodup_cons.1 hrep.nodup).2).1 (hc ▸ hmem)
        have hgetx : l.memory.getNode x =
            some { ptr := linkAt (h :: h1 :: hs2) (k+2), payload := w } :=
          hrep.nodes (k+2) x w (by simpa using hh) (by simpa using hv)
        refine Memory.getNode_eq_some_iff.2 ⟨hxz, ?_⟩
        rw [List.getElem?_set_ne (by omega), List.getElem?_set_ne (by omega)]
        rw [(Memory.getNode_eq_some_iff.1 hgetx).2]
        rw [linkAt_cons_succ _ _ (k+1) (by omega)]
    · intro j node hj
      rcases eq_or_ne j (h - 1) with rfl | hneh
      · rw [List.getElem?_set_self (by simpa using hhlt)] at hj
        exact absurd (Option.some.inj hj) (by simp)
      · rw [List.getElem?_set_ne (Ne.symm hneh)] at hj
        rcases eq_or_ne j (h1 - 1) with rfl | hneh1
        · have hjp : h1 - 1 + 1 = h1 := by omega
          rw [hjp]
          exact List.mem_cons_self h1 hs2
        · rw [List.getElem?_set_ne (Ne.symm hneh1)] at hj
          have hmem := hrep.occupied j node hj
          rcases List.mem_cons.1 hmem with hc | hmem2
          · exact absurd hc (by omega)
          · exact hmem2
    · intro j
      rcases eq_or_ne j (h - 1) with rfl | hne
      · constructor
        · intro _
          rw [List.getElem?_set_self (by simpa using hhlt)]
        · intro _
          exact List.mem_cons_self _ _
      · rw [List.getElem?_set_ne (Ne.symm hne),
          vacancy_set (by rw [hslot1]; simp) j]
        constructor
        · intro hj
          rcases List.mem_cons.1 hj with rfl | hmem
          · exact absurd rfl hne
          · exact (hrep.free_iff j).1 hmem
        · intro hj
          exact List.mem_cons_of_mem _ ((hrep.free_iff j).2 hj)
    · refine List.nodup_cons.2 ⟨?_, hrep.free_nodup⟩
      intro hmem
      have := (hrep.free_iff (h-1)).1 hmem
      rw [hslotv] at this
      exact absurd (Option.some.inj this) (by simp)
    · have := hrep.count
      simp only [List.length_set, List.length_cons] at *
      omega

/-! ## Reversal: push_back / pop_back are mirror images of the front ops -/

/-- Swap the head and tail handles; the memory is untouched. -/
def LinkedList.rev {T : Type} (l : LinkedList T) : LinkedList T :=
  { head := l.tail, tail := l.head, memory := l.memory }

theorem push_back_eq_rev {T : Type} (l : LinkedList T) (p : T) :
    l.push_back p = ((LinkedList.rev l).push_front p).rev := by
  simp only [LinkedList.push_back, LinkedList.push_front, LinkedList.rev,
    LinkedList.len, Memory.len]
  split <;> rfl

theorem pop_back_eq_rev {T : Type} (l : LinkedList T) :
    l.pop_back = (((LinkedList.rev l).pop_front).1.rev,
      ((LinkedList.rev l).pop_front).2) := by
  simp only [LinkedList.pop_back, LinkedList.pop_front, LinkedList.rev]
  rcases hgn : l.memory.getNode l.tail with _ | node
  · rfl
  · simp only [LinkedList.len, Memory.len]
    split <;> rfl

theorem headD_reverse {α : Type} (xs : List α) (d : α) :
    xs.reverse.headD d = xs.getLastD d := by
  rw [List.headD_eq_head?_getD, List.head?_reverse, List.getLastD_eq_getLast?]

theorem getLastD_reverse {α : Type} (xs : List α) (d : α) :
    xs.reverse.getLastD d = xs.headD d := by
  rw [← headD_reverse xs.reverse d, List.reverse_reverse]

theorem prevAt_reverse (hs : List Nat) (i : Nat) (hi : i < hs.length) :
    prevAt hs.reverse i = nextAt hs (hs.length - 1 - i) := by
  unfold prevAt nextAt
  rcases i with _ | k
  · rw [if_pos rfl, List.getElem?_eq_none (by omega)]
    simp
  · rw [if_neg (by omega)]
    simp only [Nat.add_sub_cancel]
    rw [List.getElem?_reverse (by omega)]
    have heq : hs.length - 1 - k = hs.length - 1 - (k+1) + 1 := by omega
    rw [heq]

theorem nextAt_reverse (hs : List Nat) (i : Nat) (hi : i < hs.length) :
    nextAt hs.reverse i = prevAt hs (hs.length - 1 - i) := by
  unfold prevAt nextAt
  rcases Nat.lt_or_ge (i+1) hs.length with hlt | hge
  · rw [List.getElem?_reverse hlt, if_neg (by omega)]
    have heq : hs.length - 1 - (i+1) = hs.length - 1 - i - 1 := by omega
    rw [heq]
  · have h0 : hs.length - 1 - i = 0 := by omega
    rw [h0, if_pos rfl, List.getElem?_eq_none (by simp; omega)]
    simp

theorem linkAt_reverse (hs : List Nat) (i : Nat) (hi : i < hs.length) :
    linkAt hs.reverse i = linkAt hs (hs.length - 1 - i) := by
  unfold linkAt
  rw [prevAt_reverse hs i hi, nextAt_reverse hs i hi, Nat.xor_comm]

/-- Reversing the handle and payload sequences represents the reversed list. -/
theorem rev_listRep {T : Type} {l : LinkedList T} {hs : List Nat} {vs : List T}
    (hrep : ListRep l hs vs) : ListRep l.rev hs.reverse vs.reverse := by
  refine ⟨by simp [hrep.len_eq], List.nodup_reverse.2 hrep.nodup, ?_, ?_, ?_,
    ?_, ?_, hrep.free_iff, hrep.free_nodup, ?_⟩
  · intro h hm
    exact hrep.nz h (List.mem_reverse.1 hm)
  · show l.tail = _
    rw [hrep.tail_eq, headD_reverse]
  · show l.head = _
    rw [hrep.head_eq, getLastD_reverse]
  · intro i h v hh hv
    have hilt : i < hs.length := by
      have := (List.getElem?_eq_some_iff.1 hh).1
      simpa using this
    have hvlt : i < vs.length := by
      rw [← hrep.len_eq]
      exact hilt
    rw [List.getElem?_reverse hilt] at hh
    rw [List.getElem?_reverse hvlt] at hv
    have hidxeq : vs.length - 1 - i = hs.length - 1 - i := by
      rw [hrep.len_eq]
    rw [hidxeq] at hv
    rw [linkAt_reverse hs i hilt]
    exact hrep.nodes (hs.length - 1 - i) h v hh hv
  · intro j node hj
    exact List.mem_reverse.2 (hrep.occupied j node hj)
  · show l.memory.slots.length = _
    rw [hrep.count]
    simp [LinkedList.rev]

/-- Applying `push_back` appends the freshly allocated handle and payload. -/
theorem push_back_listRep {T : Type} {l : LinkedList T} {hs : List Nat}
    {vs : List T} (p : T) (hrep : ListRep l hs vs) :
    ListRep (l.push_back p) (hs ++ [(l.memory.alloc p).2]) (vs ++ [p]) := by
  have h1 := push_front_listRep p (rev_listRep hrep)
  have h2 := rev_listRep h1
  rw [push_back_eq_rev]
  simpa using h2

/-- Applying `pop_back` on a represented nonempty list returns the back payload and
leaves a list representing the remaining sequences. -/
theorem pop_back_listRep {T : Type} {l : LinkedList T} {h : Nat}
    {hs : List Nat} {v : T} {vs : List T}
    (hrep : ListRep l (hs ++ [h]) (vs ++ [v])) :
    (l.pop_back).2 = some v ∧ ListRep (l.pop_back).1 hs vs := by
  have hrev : ListRep l.rev (h :: hs.reverse) (v :: vs.reverse) := by
    have := rev_listRep hrep
    simpa using this
  obtain ⟨hval, hrep2⟩ := pop_front_listRep hrev
  rw [pop_back_eq_rev]
  refine ⟨hval, ?_⟩
  have := rev_listRep hrep2
  simpa using this

/-! ## Derived operations: bulk pushes and repeated pops -/

/-- Push every element of `xs` with `push_back`, left to right. -/
def LinkedList.pushBackAll {T : Type} (l : LinkedList T) (xs : List T) :
    LinkedList T :=
  xs.foldl LinkedList.push_back l

/-- Push every element of `xs` with `push_front`, left to right. -/
def LinkedList.pushFrontAll {T : Type} (l : LinkedList T) (xs : List T) :
    LinkedList T :=
  xs.foldl LinkedList.push_front l

/-- The results of `n` successive `pop_front` calls. -/
def LinkedList.popFrontN {T : Type} : Nat → LinkedList T → List (Option T)
  | 0, _ => []
  | n+1, l => (l.pop_front).2 :: LinkedList.popFrontN n (l.pop_front).1

/-- The results of `n` successive `pop_back` calls. -/
def LinkedList.popBackN {T : Type} : Nat → LinkedList T → List (Option T)
  | 0, _ => []
  | n+1, l => (l.pop_back).2 :: LinkedList.popBackN n (l.pop_back).1

theorem pushBackAll_listRep {T : Type} (xs : List T) {l : LinkedList T}
    {hs : List Nat} {vs : List T} (hrep : ListRep l hs vs) :
    ∃ hs2, ListRep (l.pushBackAll xs) hs2 (vs ++ xs) := by
  induction xs generalizing l hs vs with
  | nil => exact ⟨hs, by simpa using hrep⟩
  | cons x xs ih =>
    obtain ⟨hs2, hrep2⟩ := ih (push_back_listRep x hrep)
    refine ⟨hs2, ?_⟩
    have hva : (vs ++ [x]) ++ xs = vs ++ x :: xs := by simp
    rw [hva] at hrep2
    exact hrep2

theorem pushFrontAll_listRep {T : Type} (xs : List T) {l : LinkedList T}
    {hs : List Nat} {vs : List T} (hrep : ListRep l hs vs) :
    ∃ hs2, ListRep (l.pushFrontAll xs) hs2 (xs.reverse ++ vs) := by
  induction xs generalizing l hs vs with
  | nil => exact ⟨hs, by simpa using hrep⟩
  | cons x xs ih =>
    obtain ⟨hs2, hrep2⟩ := ih (push_front_listRep x hrep)
    refine ⟨hs2, ?_⟩
    have hva : xs.reverse ++ x :: vs = (x :: xs).reverse ++ vs := by simp
    rw [hva] at hrep2
    exact hrep2

theorem popFrontN_listRep {T : Type} {vs : List T} {l : LinkedList T}
    {hs : List Nat} (hrep : ListRep l hs vs) :
    LinkedList.popFrontN vs.length l = vs.map some := by
  induction vs generalizing l hs with
  | nil => rfl
  | cons v vs ih =>
    rcases hs with _ | ⟨h, hs⟩
    · have := hrep.len_eq
      simp at this
    · obtain ⟨hval, hrep2⟩ := pop_front_listRep hrep
      simp only [List.length_cons, LinkedList.popFrontN, hval, List.map_cons]
      exact congrArg _ (ih hrep2)

theorem popBackN_listRep {T : Type} {vs : List T} {l : LinkedList T}
    {hs : List Nat} (hrep : ListRep l hs vs) :
    LinkedList.popBackN vs.length l = vs.reverse.map some := by
  induction vs using List.reverseRecOn generalizing l hs with
  | nil => rfl
  | append_singleton vs v ih =>
    rcases List.eq_nil_or_concat hs with rfl | ⟨ys, y, rfl⟩
    · have := hrep.len_eq
      simp at this
    · rw [List.concat_eq_append] at hrep
      obtain ⟨hval, hrep2⟩ := pop_back_listRep hrep
      have hlen : (vs ++ [v]).length = vs.length + 1 := by simp
      rw [hlen]
      simp only [LinkedList.popBackN, hval, List.reverse_append, List.reverse_cons,
        List.reverse_nil, List.nil_append, List.cons_append, List.map_cons]
      exact congrArg _ (ih hrep2)

/-! ## Arbitrary sequences of public operations -/

/-- One public list operation. -/
inductive Op (T : Type) where
  | pushFront (p : T)
  | pushBack (p : T)
  | popFront
  | popBack

/-- Apply one operation (pop results are discarded, as a caller may do). -/
def LinkedList.applyOp {T : Type} (l : LinkedList T) : Op T → LinkedList T
  | .pushFront p => l.push_front p
  | .pushBack p => l.push_back p
  | .popFront => (l.pop_front).1
  | .popBack => (l.pop_back).1

/-- Run a sequence of operations from the given list. -/
def LinkedList.execOps {T : Type} (l : LinkedList T) : List (Op T) → LinkedList T
  | [] => l
  | op :: ops => (l.applyOp op).execOps ops

/-- Number of pushes in a sequence (every push allocates exactly one node). -/
def pushCount {T : Type} : List (Op T) → Nat
  | [] => 0
  | .pushFront _ :: ops => pushCount ops + 1
  | .pushBack _ :: ops => pushCount ops + 1
  | .popFront :: ops => pushCount ops
  | .popBack :: ops => pushCount ops

/-- Number of pops that actually removed (returned) a payload, when the
sequence is run from `l`. -/
def removedCount {T : Type} (l : LinkedList T) : List (Op T) → Nat
  | [] => 0
  | .pushFront p :: ops => removedCount (l.push_front p) ops
  | .pushBack p :: ops => removedCount (l.push_back p) ops
  | .popFront :: ops =>
      (if (l.pop_front).2.isSome then 1 else 0) + removedCount (l.pop_front).1 ops
  | .popBack :: ops =>
      (if (l.pop_back).2.isSome then 1 else 0) + removedCount (l.pop_back).1 ops

/-- Applying `pop_front` to a represented empty list untouched and yields nothing. -/
theorem pop_front_of_head_zero {T : Type} (l : LinkedList T) (h : l.head = 0) :
    l.pop_front = (l, none) := by
  simp only [LinkedList.pop_front, h, Memory.getNode_zero]

/-- Applying `pop_back` to a represented empty list untouched and yields nothing. -/
theorem pop_back_of_tail_zero {T : Type} (l : LinkedList T) (h : l.tail = 0) :
    l.pop_back = (l, none) := by
  simp only [LinkedList.pop_back, h, Memory.getNode_zero]

/-- Master invariant: running any operation sequence from a represented list
yields a represented list, and the number of held payloads changes by
pushes minus successful pops. -/
theorem execOps_listRep {T : Type} (ops : List (Op T)) :
    ∀ (l : LinkedList T) (hs : List Nat) (vs : List T), ListRep l hs vs →
    ∃ hs2 vs2, ListRep (l.execOps ops) hs2 vs2 ∧
      hs2.length + removedCount l ops = hs.length + pushCount ops := by
  induction ops with
  | nil =>
    intro l hs vs hrep
    exact ⟨hs, vs, hrep, by simp [removedCount, pushCount]⟩
  | cons op ops ih =>
    intro l hs vs hrep
    cases op with
    | pushFront p =>
      obtain ⟨hs2, vs2, hrep2, hcnt⟩ :=
        ih (l.push_front p) _ _ (push_front_listRep p hrep)
      refine ⟨hs2, vs2, hrep2, ?_⟩
      simp only [removedCount, pushCount]
      simp only [List.length_cons] at hcnt
      omega
    | pushBack p =>
      obtain ⟨hs2, vs2, hrep2, hcnt⟩ :=
        ih (l.push_back p) _ _ (push_back_listRep p hrep)
      refine ⟨hs2, vs2, hrep2, ?_⟩
      simp only [removedCount, pushCount]
      simp only [List.length_append, List.length_cons, List.length_nil] at hcnt
      omega
    | popFront =>
      rcases hs with _ | ⟨h, hs⟩
      · have hvs : vs = [] := by
          have := hrep.len_eq
          cases vs
          · rfl
          · simp at this
        subst hvs
        have hpf : l.pop_front = (l, none) :=
          pop_front_of_head_zero l hrep.head_eq
        obtain ⟨hs2, vs2, hrep2, hcnt⟩ := ih l [] [] hrep
        refine ⟨hs2, vs2, ?_, ?_⟩
        · show ListRep (((l.pop_front).1).execOps ops) hs2 vs2
          simp only [hpf]
          exact hrep2
        · simp only [removedCount, pushCount, hpf, Option.isSome_none,
            Bool.false_eq_true, if_false]
          omega
      · obtain ⟨v, vs2, rfl⟩ : ∃ v vs2, vs = v :: vs2 := by
          have := hrep.len_eq
          cases vs
          · simp at this
          · exact ⟨_, _, rfl⟩
        obtain ⟨hval, hrep1⟩ := pop_front_listRep hrep
        obtain ⟨hs3, vs3, hrep2, hcnt⟩ := ih (l.pop_front).1 _ _ hrep1
        refine ⟨hs3, vs3, hrep2, ?_⟩
        simp only [removedCount, hval, Option.isSome_some, if_pos, pushCount,
          List.length_cons]
        omega
    | popBack =>
      rcases List.eq_nil_or_concat hs with rfl | ⟨ys, y, rfl⟩
      · have hvs : vs = [] := by
          have := hrep.len_eq
          cases vs
          · rfl
          · simp at this
        subst hvs
        have hpb : l.pop_back = (l, none) :=
          pop_back_of_tail_zero l hrep.tail_eq
        obtain ⟨hs2, vs2, hrep2, hcnt⟩ := ih l [] [] hrep
        refine ⟨hs2, vs2, ?_, ?_⟩
        · show ListRep (((l.pop_back).1).execOps ops) hs2 vs2
          simp only [hpb]
          exact hrep2
        · simp only [removedCount, pushCount, hpb, Option.isSome_none,
            Bool.false_eq_true, if_false]
          omega
      · rw [List.concat_eq_append] at hrep
        obtain ⟨ws, w, rfl⟩ : ∃ ws w, vs = ws ++ [w] := by
          rcases List.eq_nil_or_concat vs with rfl | ⟨ws, w, rfl⟩
          · have := hrep.len_eq
            simp at this
          · exact ⟨ws, w, List.concat_eq_append ws w⟩
        obtain ⟨hval, hrep1⟩ := pop_back_listRep hrep
        obtain ⟨hs3, vs3, hrep2, hcnt⟩ := ih (l.pop_back).1 _ _ hrep1
        refine ⟨hs3, vs3, hrep2, ?_⟩
        simp only [removedCount, hval, Option.isSome_some, if_pos, pushCount,
          List.concat_eq_append, List.length_append, List.length_cons,
          List.length_nil]
        omega

/-! ## Shape consequences of the representation -/

theorem ListRep.nil_iff_heads_zero {T : Type} {l : LinkedList T} {hs : List Nat}
    {vs : List T} (hrep : ListRep l hs vs) :
    hs = [] ↔ l.head = 0 ∧ l.tail = 0 := by
  constructor
  · rintro rfl
    exact ⟨hrep.head_eq, hrep.tail_eq⟩
  · rintro ⟨hh, -⟩
    rcases hs with _ | ⟨h, hs2⟩
    · rfl
    · have heq : l.head = h := hrep.head_eq
      exact absurd (heq.symm.trans hh) (hrep.nz h (List.mem_cons_self h hs2))

theorem ListRep.single_shape {T : Type} {l : LinkedList T} {hs : List Nat}
    {vs : List T} (hrep : ListRep l hs vs) (hone : hs.length = 1) :
    l.head = l.tail ∧ l.head ≠ 0 ∧
      ∃ v, l.memory.getNode l.head = some { ptr := 0, payload := v } := by
  obtain ⟨h, rfl⟩ : ∃ h, hs = [h] := by
    rcases hs with _ | ⟨h, _ | _⟩
    · simp at hone
    · exact ⟨h, rfl⟩
    · simp at hone
  obtain ⟨v, rfl⟩ : ∃ v, vs = [v] := by
    have hvone : vs.length = 1 := by
      rw [← hrep.len_eq]
      exact hone
    rcases vs with _ | ⟨v, _ | _⟩
    · simp at hvone
    · exact ⟨v, rfl⟩
    · simp at hvone
  have hh : l.head = h := hrep.head_eq
  have ht : l.tail = h := hrep.tail_eq
  refine ⟨by rw [hh, ht], by rw [hh]; exact hrep.nz h (List.mem_singleton.2 rfl), v, ?_⟩
  have := hrep.nodes 0 h v (by simp) (by simp)
  rw [linkAt_singleton] at this
  rw [hh]
  exact this

theorem ListRep.multi_shape {T : Type} {l : LinkedList T} {hs : List Nat}
    {vs : List T} (hrep : ListRep l hs vs) (htwo : 2 ≤ hs.length) :
    l.head ≠ l.tail ∧ l.head ≠ 0 ∧ l.tail ≠ 0 := by
  obtain ⟨h0, h1, rest, rfl⟩ : ∃ h0 h1 rest, hs = h0 :: h1 :: rest := by
    rcases hs with _ | ⟨h0, _ | ⟨h1, rest⟩⟩
    · simp at htwo
    · simp at htwo
    · exact ⟨h0, h1, rest, rfl⟩
  have hh : l.head = h0 := hrep.head_eq
  have ht : l.tail = (h1 :: rest).getLastD h0 := by
    rw [hrep.tail_eq, List.getLastD_cons]
  have htmem : l.tail ∈ h1 :: rest := by
    rw [ht, List.getLastD_cons]
    exact List.getLastD_mem_cons rest h1
  refine ⟨?_, ?_, ?_⟩
  · intro hc
    have hth : h0 = l.tail := hh.symm.trans hc
    rw [← hth] at htmem
    exact (List.nodup_cons.1 hrep.nodup).1 htmem
  · rw [hh]
    exact hrep.nz h0 (List.mem_cons_self _ _)
  · exact hrep.nz l.tail (List.mem_cons_of_mem h0 htmem)

theorem ListRep.len_zero_iff {T : Type} {l : LinkedList T} {hs : List Nat}
    {vs : List T} (hrep : ListRep l hs vs) :
    l.len = 0 ↔ l.head = 0 ∧ l.tail = 0 := by
  rw [hrep.len_eq_handles, ← hrep.nil_iff_heads_zero]
  exact List.length_eq_zero

theorem ListRep.head_occupied {T : Type} {l : LinkedList T} {hs : List Nat}
    {vs : List T} (hrep : ListRep l hs vs) (hh : l.head ≠ 0) :
    ∃ node, l.memory.getNode l.head = some node := by
  rcases hs with _ | ⟨h, hs2⟩
  · exact absurd hrep.head_eq hh
  · have heq : l.head = h := hrep.head_eq
    obtain ⟨node, hnode⟩ := hrep.mem_slot (List.mem_cons_self h hs2)
    refine ⟨node, Memory.getNode_eq_some_iff.2 ⟨hh, ?_⟩⟩
    rw [heq]
    exact hnode

theorem ListRep.tail_occupied {T : Type} {l : LinkedList T} {hs : List Nat}
    {vs : List T} (hrep : ListRep l hs vs) (ht : l.tail ≠ 0) :
    ∃ node, l.memory.getNode l.tail = some node := by
  have := (rev_listRep hrep).head_occupied (l := l.rev) ht
  exact this

/-! ## Iterator: repeated next calls -/

/-- Call `next` `n` times, collecting the yielded values and the final
iterator state. -/
def LinkedListIter.runN {T : Type} : Nat → LinkedListIter T →
    List (Option T) × LinkedListIter T
  | 0, it => ([], it)
  | n+1, it =>
      (((it.next).2 :: (LinkedListIter.runN n (it.next).1).1),
        (LinkedListIter.runN n (it.next).1).2)

theorem LinkedListIter.next_of_empty {T : Type} (it : LinkedListIter T)
    (h : it.linked_list.head = 0) : it.next = (it, none) := by
  unfold LinkedListIter.next
  rw [pop_front_of_head_zero _ h]

/-- Draining a represented list through the iterator yields exactly the
payloads, in order, and leaves the underlying list representing `([], [])`. -/
theorem runN_listRep {T : Type} {vs : List T} {l : LinkedList T}
    {hs : List Nat} (hrep : ListRep l hs vs) :
    (LinkedListIter.runN vs.length l.intoIter).1 = vs.map some ∧
    ListRep ((LinkedListIter.runN vs.length l.intoIter).2).linked_list [] [] := by
  induction vs generalizing l hs with
  | nil =>
    obtain rfl : hs = [] := List.length_eq_zero.1 (by simp [hrep.len_eq])
    exact ⟨rfl, hrep⟩
  | cons v vs ih =>
    rcases hs with _ | ⟨h, hs⟩
    · have := hrep.len_eq
      simp at this
    · obtain ⟨hval, hrep2⟩ := pop_front_listRep hrep
      have hnext : (l.intoIter).next = ((l.pop_front).1.intoIter, (l.pop_front).2) := rfl
      obtain ⟨ih1, ih2⟩ := ih hrep2
      constructor
      · simp only [List.length_cons, LinkedListIter.runN, hnext, hval, List.map_cons]
        exact congrArg _ ih1
      · simp only [List.length_cons, LinkedListIter.runN, hnext]
        exact ih2

/-! ## Claim theorems -/

/-- C1: `Memory::remove` is claimed to be idempotent-safe: removing an
already-vacated handle must not push its index onto the free stack again.
The code violates this: on a one-slot arena holding payload 42, the first
`remove 1` returns the payload, vacates the slot and pushes index 0; the
second `remove 1` returns nothing but pushes index 0 AGAIN, leaving the
free stack `[0, 0]` with a duplicate. -/
theorem remove_double_free :
    ((Memory.mk [some (Node.mk 0 (42 : Nat))] []).remove 1).2 = some 42 ∧
    ((Memory.mk [some (Node.mk 0 (42 : Nat))] []).remove 1).1.slots = [none] ∧
    ((Memory.mk [some (Node.mk 0 (42 : Nat))] []).remove 1).1.free_slots = [0] ∧
    ((((Memory.mk [some (Node.mk 0 (42 : Nat))] []).remove 1).1).remove 1).2 = none ∧
    ((((Memory.mk [some (Node.mk 0 (42 : Nat))] []).remove 1).1).remove 1).1.free_slots
      = [0, 0] :=
  ⟨rfl, rfl, rfl, rfl, rfl⟩

/-- C2: from a new list, every sequence of push_front / push_back /
pop_front / pop_back preserves the structural invariant: some handle and
payload sequences are represented (`ListRep`: head and tail are the first
and last handle or 0, and every node's link word is the XOR of the handles
of its two true neighbors, 0 for an absent neighbor); the list is empty iff
head = tail = 0; a single-element list has head = tail ≠ 0 and link word 0;
a multi-element list has head ≠ tail, both nonzero. -/
theorem exec_preserves_structural_invariant {T : Type} (ops : List (Op T)) :
    ∃ hs vs, ListRep ((LinkedList.new : LinkedList T).execOps ops) hs vs ∧
      (hs = [] ↔ ((LinkedList.new : LinkedList T).execOps ops).head = 0 ∧
        ((LinkedList.new : LinkedList T).execOps ops).tail = 0) ∧
      (hs.length = 1 →
        ((LinkedList.new : LinkedList T).execOps ops).head =
          ((LinkedList.new : LinkedList T).execOps ops).tail ∧
        ((LinkedList.new : LinkedList T).execOps ops).head ≠ 0 ∧
        ∃ v, ((LinkedList.new : LinkedList T).execOps ops).memory.getNode
          ((LinkedList.new : LinkedList T).execOps ops).head =
          some { ptr := 0, payload := v }) ∧
      (2 ≤ hs.length →
        ((LinkedList.new : LinkedList T).execOps ops).head ≠
          ((LinkedList.new : LinkedList T).execOps ops).tail ∧
        ((LinkedList.new : LinkedList T).execOps ops).head ≠ 0 ∧
        ((LinkedList.new : LinkedList T).execOps ops).tail ≠ 0) := by
  obtain ⟨hs, vs, hrep, -⟩ :=
    execOps_listRep ops LinkedList.new [] [] ListRep.of_new
  exact ⟨hs, vs, hrep, hrep.nil_iff_heads_zero, hrep.single_shape,
    hrep.multi_shape⟩

/-- C3 (queue law): pushing payloads `0..n` with `push_back` and then
popping `n` times with `pop_front` yields `some 0, some 1, ..., some (n-1)`
in that order. -/
theorem queue_law (n : Nat) :
    LinkedList.popFrontN n
      ((LinkedList.new : LinkedList Nat).pushBackAll (List.range n)) =
    (List.range n).map some := by
  obtain ⟨hs2, hrep2⟩ :=
    pushBackAll_listRep (List.range n) (ListRep.of_new (T := Nat))
  rw [List.nil_append] at hrep2
  have := popFrontN_listRep hrep2
  rwa [List.length_range] at this

/-- C4 (stack law): pushing payloads `0..n` with `push_front` and then
popping `n` times with `pop_front` yields them in reverse order
`some (n-1), ..., some 0`. -/
theorem stack_law (n : Nat) :
    LinkedList.popFrontN n
      ((LinkedList.new : LinkedList Nat).pushFrontAll (List.range n)) =
    ((List.range n).reverse).map some := by
  obtain ⟨hs2, hrep2⟩ :=
    pushFrontAll_listRep (List.range n) (ListRep.of_new (T := Nat))
  rw [List.append_nil] at hrep2
  have := popFrontN_listRep hrep2
  rwa [List.length_reverse, List.length_range] at this

/-- C5 (symmetry law): pushing payloads `0..n` with `push_front` and then
popping `n` times with `pop_back` yields them in original insertion order
`some 0, some 1, ..., some (n-1)`. -/
theorem symmetry_law (n : Nat) :
    LinkedList.popBackN n
      ((LinkedList.new : LinkedList Nat).pushFrontAll (List.range n)) =
    (List.range n).map some := by
  obtain ⟨hs2, hrep2⟩ :=
    pushFrontAll_listRep (List.range n) (ListRep.of_new (T := Nat))
  rw [List.append_nil] at hrep2
  have := popBackN_listRep hrep2
  rwa [List.length_reverse, List.length_range, List.reverse_reverse] at this

/-- C6: after any operation sequence from a new list, `len` plus the number
of successful removals equals the number of allocations (so `len` is
allocations minus removals), and `len = 0` exactly when head = tail = 0. -/
theorem length_spec {T : Type} (ops : List (Op T)) :
    ((LinkedList.new : LinkedList T).execOps ops).len +
      removedCount (LinkedList.new : LinkedList T) ops = pushCount ops ∧
    (((LinkedList.new : LinkedList T).execOps ops).len = 0 ↔
      ((LinkedList.new : LinkedList T).execOps ops).head = 0 ∧
      ((LinkedList.new : LinkedList T).execOps ops).tail = 0) := by
  obtain ⟨hs, vs, hrep, hcnt⟩ :=
    execOps_listRep ops LinkedList.new [] [] ListRep.of_new
  refine ⟨?_, hrep.len_zero_iff⟩
  rw [hrep.len_eq_handles]
  simpa using hcnt

/-- C7: popping from an empty list (head = tail = 0) is not a fault — both
pops return `none` (the functions are total, so no crash is possible). -/
theorem pop_empty_returns_none {T : Type} (l : LinkedList T)
    (he : l.head = 0 ∧ l.tail = 0) :
    (l.pop_front).2 = none ∧ (l.pop_back).2 = none := by
  rw [pop_front_of_head_zero l he.1, pop_back_of_tail_zero l he.2]
  exact ⟨rfl, rfl⟩

theorem pop_empty_returns_none_witness :
    ((LinkedList.new : LinkedList Nat).head = 0 ∧
      (LinkedList.new : LinkedList Nat).tail = 0) ∧
    ((LinkedList.new : LinkedList Nat).pop_front).2 = none ∧
    ((LinkedList.new : LinkedList Nat).pop_back).2 = none :=
  ⟨⟨rfl, rfl⟩, pop_empty_returns_none LinkedList.new ⟨rfl, rfl⟩⟩

/-- C9: popping from an empty list (head = tail = 0) leaves the entire list
state — head, tail, slot vector and free stack — exactly unchanged. -/
theorem pop_empty_state_unchanged {T : Type} (l : LinkedList T)
    (he : l.head = 0 ∧ l.tail = 0) :
    (l.pop_front).1 = l ∧ (l.pop_back).1 = l := by
  rw [pop_front_of_head_zero l he.1, pop_back_of_tail_zero l he.2]
  exact ⟨rfl, rfl⟩

theorem pop_empty_state_unchanged_witness :
    ((LinkedList.new : LinkedList Nat).head = 0 ∧
      (LinkedList.new : LinkedList Nat).tail = 0) ∧
    ((LinkedList.new : LinkedList Nat).pop_front).1 = LinkedList.new ∧
    ((LinkedList.new : LinkedList Nat).pop_back).1 = LinkedList.new :=
  ⟨⟨rfl, rfl⟩, pop_empty_state_unchanged LinkedList.new ⟨rfl, rfl⟩⟩

/-- C8: consuming a represented list through the iterator (`next` =
`pop_front`) yields exactly the payloads in front-to-back order, one per
call, for exactly `len` calls; after that the iterator is exhausted
(`next` returns `none` and changes nothing) and the underlying list has
been permanently drained (`len = 0`). -/
theorem iter_drains_in_order {T : Type} {l : LinkedList T} {hs : List Nat}
    {vs : List T} (hrep : ListRep l hs vs) :
    l.len = vs.length ∧
    (LinkedListIter.runN l.len l.intoIter).1 = vs.map some ∧
    ((LinkedListIter.runN l.len l.intoIter).2).next =
      ((LinkedListIter.runN l.len l.intoIter).2, none) ∧
    ((LinkedListIter.runN l.len l.intoIter).2).linked_list.len = 0 := by
  have hlen : l.len = vs.length := by
    rw [hrep.len_eq_handles, hrep.len_eq]
  obtain ⟨h1, h2⟩ := runN_listRep hrep
  rw [hlen]
  exact ⟨rfl, h1, LinkedListIter.next_of_empty _ h2.head_eq, h2.len_eq_handles⟩

theorem iter_drains_in_order_witness :
    (((LinkedList.new.push_back 0).push_back 1 : LinkedList Nat).len = 2) ∧
    (LinkedListIter.runN 2
      (((LinkedList.new.push_back 0).push_back 1 : LinkedList Nat).intoIter)).1 =
      [some 0, some 1] ∧
    ((LinkedListIter.runN 2
      (((LinkedList.new.push_back 0).push_back 1 : LinkedList Nat).intoIter)).2).next =
      ((LinkedListIter.runN 2
        (((LinkedList.new.push_back 0).push_back 1 : LinkedList Nat).intoIter)).2,
        none) ∧
    ((LinkedListIter.runN 2
      (((LinkedList.new.push_back 0).push_back 1 : LinkedList Nat).intoIter)).2).linked_list.len
      = 0 := by
  have h1 := push_back_listRep 1
    (push_back_listRep 0 (ListRep.of_new (T := Nat)))
  obtain ⟨ha, hb, hc, hd⟩ := iter_drains_in_order h1
  have ha2 : (((LinkedList.new : LinkedList Nat).push_back 0).push_back 1).len = 2 := by
    simpa using ha
  rw [ha2] at hb hc hd
  refine ⟨ha2, by simpa using hb, hc, hd⟩

/-- C10: after any operation sequence from a new list, the free stack has no
duplicates and contains only vacant slot indices, the free stack is never
larger than the slot vector (so `Memory::len` cannot underflow), and
whenever head (resp. tail) is nonzero — the only situations in which the
pops invoke `Memory::remove`, on exactly that handle — the handle refers to
an occupied slot. -/
theorem free_stack_integrity {T : Type} (ops : List (Op T)) :
    ((LinkedList.new : LinkedList T).execOps ops).memory.free_slots.Nodup ∧
    (∀ j ∈ ((LinkedList.new : LinkedList T).execOps ops).memory.free_slots,
      ((LinkedList.new : LinkedList T).execOps ops).memory.slots[j]? = some none) ∧
    ((LinkedList.new : LinkedList T).execOps ops).memory.free_slots.length ≤
      ((LinkedList.new : LinkedList T).execOps ops).memory.slots.length ∧
    (((LinkedList.new : LinkedList T).execOps ops).head ≠ 0 →
      ∃ node, ((LinkedList.new : LinkedList T).execOps ops).memory.getNode
        ((LinkedList.new : LinkedList T).execOps ops).head = some node) ∧
    (((LinkedList.new : LinkedList T).execOps ops).tail ≠ 0 →
      ∃ node, ((LinkedList.new : LinkedList T).execOps ops).memory.getNode
        ((LinkedList.new : LinkedList T).execOps ops).tail = some node) := by
  obtain ⟨hs, vs, hrep, -⟩ :=
    execOps_listRep ops LinkedList.new [] [] ListRep.of_new
  refine ⟨hrep.free_nodup, fun j hj => (hrep.free_iff j).1 hj, ?_,
    hrep.head_occupied, hrep.tail_occupied⟩
  have := hrep.count
  omega
